import Mathlib

/-!
# Verification of `react-hook-form-discriminated`

A shallow embedding of the runtime behaviour of the three utilities of the
repository:

* `useFormTypeguard` (src/unnamed/part_002, second half) — the discriminant
  Matcher: it flattens the discriminant pattern with es-toolkit's
  `flattenObject`, memoizes the key list on `JSON.stringify(discriminant)`,
  watches exactly those field paths, and on every change recomputes
  `values[index] === get(discriminant, key)` over all keys.
* `createDiscriminatedFormCtx` (src/unnamed/part_002, first half) — the
  variant accessor factory: at runtime it is `() => useFormContext()`.
* `createDiscriminatedSubmitHandler` (src/unnamed/part_001) — the dispatcher:
  reads `values[discriminantKey]`, looks the handler up in the table, throws
  `Error("No handler found for discriminant value: " + String(value))` when
  absent, otherwise calls the handler on `omit(values, [discriminantKey])`.

JavaScript runtime values are modelled by `JSValue`.  Mutable objects have no
identity in the embedding: `===` on objects/arrays (reference equality) is
modelled as `false`, which is faithful whenever the pattern and the form state
share no object references (patterns are object literals at call sites).
JavaScript numbers are modelled by `Int`.

Field paths: the library joins nested keys with `"."` and later re-splits
them (es-toolkit `flattenObject` produces dotted keys, the lodash-style `get`
of es-toolkit/compat splits on `"."`).  Joining then splitting is the
identity exactly on segment lists whose segments are dot-free, so the
embedding represents a path by its segment list (`FieldPath := List String`)
and provides `FieldPath.render` (join with `"."`) for the dotted display
form.

The behaviour of the consumed es-toolkit functions (`flattenObject`, `get`
from es-toolkit/compat, `omit`) is part of the embedding, translated from
their published implementations:

* `flattenObject` recurses into non-empty plain objects, expands an array
  value one level into `key.0`, `key.1`, … (elements are **not** recursed
  into), and keeps everything else — primitives, arrays' elements, empty
  plain objects — as leaves; assignments overwrite an existing key in place.
* `get(obj, "a.b")` walks the path segment by segment, returning `undefined`
  when a segment is missing; on arrays a segment addresses the element whose
  canonical decimal index string equals the segment.
* `omit(obj, [k])` returns a shallow copy of `obj` without the key `k`.
-/

/-- A JavaScript runtime value.  `obj` carries its fields in insertion
order, as a JavaScript object does. -/
inductive JSValue : Type where
  | undefined : JSValue
  | null : JSValue
  | bool : Bool → JSValue
  | num : Int → JSValue
  | str : String → JSValue
  | arr : List JSValue → JSValue
  | obj : List (String × JSValue) → JSValue
  deriving Repr

/-- The fields of a JavaScript object, in insertion order. -/
abbrev JSFields := List (String × JSValue)

instance : Inhabited JSValue := ⟨.undefined⟩

theorem sizeOf_snd_lt_of_mem_fields {e : String × JSValue} {fs : JSFields}
    (h : e ∈ fs) : sizeOf e.2 < sizeOf fs := by
  have h1 := List.sizeOf_lt_of_mem h
  obtain ⟨k, v⟩ := e
  simp at h1 ⊢
  omega

theorem sizeOf_lt_of_mem_arr {x : JSValue} {xs : List JSValue} (h : x ∈ xs) :
    sizeOf x < sizeOf xs :=
  List.sizeOf_lt_of_mem h

/-- Nested induction principle for `JSValue`: membership-style hypotheses
for the list-carrying constructors. -/
theorem JSValue.nested_ind (P : JSValue → Prop)
    (hundef : P .undefined) (hnull : P .null) (hbool : ∀ b, P (.bool b))
    (hnum : ∀ n, P (.num n)) (hstr : ∀ s, P (.str s))
    (harr : ∀ xs, (∀ x ∈ xs, P x) → P (.arr xs))
    (hobj : ∀ fs, (∀ e ∈ fs, P e.2) → P (.obj fs)) : ∀ v, P v := by
  have key : ∀ n v, sizeOf v ≤ n → P v := by
    intro n
    induction n with
    | zero => intro v hv; cases v <;> simp at hv
    | succ n ih =>
      intro v hv
      cases v with
      | undefined => exact hundef
      | null => exact hnull
      | bool b => exact hbool b
      | num m => exact hnum m
      | str s => exact hstr s
      | arr xs =>
        refine harr xs fun x hx => ih x ?_
        have := sizeOf_lt_of_mem_arr hx
        simp at hv
        omega
      | obj fs =>
        refine hobj fs fun e he => ih e.2 ?_
        have := sizeOf_snd_lt_of_mem_fields he
        simp at hv
        omega
  exact fun v => key (sizeOf v) v le_rfl

mutual

/-- Structural equality test on `JSValue`, used to decide equality of
embedded values. -/
def JSValue.beq : JSValue → JSValue → Bool
  | .undefined, .undefined => true
  | .null, .null => true
  | .bool a, .bool b => a == b
  | .num a, .num b => a == b
  | .str a, .str b => a == b
  | .arr xs, .arr ys => beqList xs ys
  | .obj fs, .obj gs => beqFields fs gs
  | _, _ => false

def beqList : List JSValue → List JSValue → Bool
  | [], [] => true
  | x :: xs, y :: ys => JSValue.beq x y && beqList xs ys
  | _, _ => false

def beqFields : JSFields → JSFields → Bool
  | [], [] => true
  | (k1, v1) :: fs, (k2, v2) :: gs => k1 == k2 && JSValue.beq v1 v2 && beqFields fs gs
  | _, _ => false

end

theorem JSValue.beq_refl : ∀ v : JSValue, JSValue.beq v v = true := by
  have hl : ∀ xs : List JSValue, (∀ x ∈ xs, JSValue.beq x x = true) →
      beqList xs xs = true := by
    intro xs h
    induction xs with
    | nil => rfl
    | cons x rest ih =>
      simp only [beqList, Bool.and_eq_true]
      exact ⟨h x (by simp), ih fun y hy => h y (by simp [hy])⟩
  have hf : ∀ fs : JSFields, (∀ e ∈ fs, JSValue.beq e.2 e.2 = true) →
      beqFields fs fs = true := by
    intro fs h
    induction fs with
    | nil => rfl
    | cons e rest ih =>
      obtain ⟨k, v⟩ := e
      simp only [beqFields, Bool.and_eq_true]
      exact ⟨⟨by simp, h (k, v) (by simp)⟩, ih fun y hy => h y (by simp [hy])⟩
  intro v
  induction v using JSValue.nested_ind with
  | hundef => rfl
  | hnull => rfl
  | hbool b => simp [JSValue.beq]
  | hnum n => simp [JSValue.beq]
  | hstr s => simp [JSValue.beq]
  | harr xs ih => exact hl xs ih
  | hobj fs ih => exact hf fs ih

theorem beqList_sound (xs : List JSValue)
    (ih : ∀ x ∈ xs, ∀ b, JSValue.beq x b = true → x = b) :
    ∀ ys, beqList xs ys = true → xs = ys := by
  induction xs with
  | nil =>
    intro ys h
    cases ys with
    | nil => rfl
    | cons y ys => simp [beqList] at h
  | cons x rest ihx =>
    intro ys h
    cases ys with
    | nil => simp [beqList] at h
    | cons y ys =>
      simp only [beqList, Bool.and_eq_true] at h
      have e1 := ih x (by simp) y h.1
      have e2 := ihx (fun z hz b hb => ih z (by simp [hz]) b hb) ys h.2
      simp [e1, e2]

theorem beqFields_sound (fs : JSFields)
    (ih : ∀ e ∈ fs, ∀ b, JSValue.beq e.2 b = true → e.2 = b) :
    ∀ gs, beqFields fs gs = true → fs = gs := by
  induction fs with
  | nil =>
    intro gs h
    cases gs with
    | nil => rfl
    | cons g gs => simp [beqFields] at h
  | cons e rest ihx =>
    obtain ⟨k, v⟩ := e
    intro gs h
    cases gs with
    | nil => simp [beqFields] at h
    | cons g gs =>
      obtain ⟨k2, v2⟩ := g
      simp only [beqFields, Bool.and_eq_true] at h
      have e1 := ih (k, v) (by simp) v2 h.1.2
      have e2 := ihx (fun z hz b hb => ih z (by simp [hz]) b hb) gs h.2
      have e3 : k = k2 := by simpa using h.1.1
      simp_all

theorem JSValue.beq_sound : ∀ a b : JSValue, JSValue.beq a b = true → a = b := by
  intro a
  induction a using JSValue.nested_ind with
  | hundef =>
    intro b h
    cases b <;> first | rfl | simp [JSValue.beq] at h
  | hnull =>
    intro b h
    cases b <;> first | rfl | simp [JSValue.beq] at h
  | hbool x =>
    intro b h
    cases b <;> simp_all [JSValue.beq]
  | hnum x =>
    intro b h
    cases b <;> simp_all [JSValue.beq]
  | hstr x =>
    intro b h
    cases b <;> simp_all [JSValue.beq]
  | harr xs ih =>
    intro b h
    cases b with
    | arr ys =>
      exact congrArg JSValue.arr (beqList_sound xs ih ys (by simpa [JSValue.beq] using h))
    | undefined => simp [JSValue.beq] at h
    | null => simp [JSValue.beq] at h
    | bool y => simp [JSValue.beq] at h
    | num y => simp [JSValue.beq] at h
    | str y => simp [JSValue.beq] at h
    | obj gs => simp [JSValue.beq] at h
  | hobj fs ih =>
    intro b h
    cases b with
    | obj gs =>
      exact congrArg JSValue.obj (beqFields_sound fs ih gs (by simpa [JSValue.beq] using h))
    | undefined => simp [JSValue.beq] at h
    | null => simp [JSValue.beq] at h
    | bool y => simp [JSValue.beq] at h
    | num y => simp [JSValue.beq] at h
    | str y => simp [JSValue.beq] at h
    | arr ys => simp [JSValue.beq] at h

instance : DecidableEq JSValue := fun a b =>
  if h : JSValue.beq a b = true then
    isTrue (JSValue.beq_sound a b h)
  else
    isFalse fun e => h (e ▸ JSValue.beq_refl a)

/-! ## Field paths and the decimal rendering of array indices -/

/-- A field path, represented by its list of dot-separated segments. -/
abbrev FieldPath := List String

/-- The dotted string form of a path, as the JavaScript code stores it. -/
def FieldPath.render (p : FieldPath) : String := String.intercalate "." p

/-- First binding of key `q` in an association list keyed by strings
(JavaScript property lookup on a plain object in insertion order). -/
def lookupKey {α : Type} : List (String × α) → String → Option α
  | [], _ => none
  | (k, v) :: rest, q => if k = q then some v else lookupKey rest q

/-- Direct property access `v[k]`: `undefined` on a missing key or a
non-object. -/
def getOwn (v : JSValue) (k : String) : JSValue :=
  match v with
  | .obj fs => (lookupKey fs k).getD .undefined
  | _ => .undefined

/-- The character of a decimal digit. -/
def digitCh (d : Nat) : Char := Char.ofNat (48 + d)

/-- Fuelled digit expansion (fuel ≥ value suffices). -/
def natStrAux : Nat → Nat → List Char
  | _, 0 => []
  | 0, _ + 1 => []
  | f + 1, n + 1 => natStrAux f ((n + 1) / 10) ++ [digitCh ((n + 1) % 10)]

/-- Decimal digit characters of a natural number. -/
def natChars (n : Nat) : List Char := if n = 0 then ['0'] else natStrAux n n

/-- Canonical decimal rendering of a natural number — JavaScript's
number-to-string conversion for array indices. -/
def natStr (n : Nat) : String := String.mk (natChars n)

theorem natStrAux_eq_digits : ∀ n f, n ≤ f →
    natStrAux f n = (Nat.digits 10 n).reverse.map digitCh := by
  intro n
  induction n using Nat.strong_induction_on with
  | _ n ih =>
    match n with
    | 0 => intro f _; cases f <;> simp [natStrAux]
    | m + 1 =>
      intro f hf
      match f, hf with
      | f' + 1, hf =>
        have hq : (m + 1) / 10 < m + 1 := Nat.div_lt_self (Nat.succ_pos m) (by norm_num)
        have hq2 : (m + 1) / 10 ≤ f' := by omega
        rw [natStrAux, ih ((m + 1) / 10) hq f' hq2,
          Nat.digits_def' (by norm_num : (1 : ℕ) < 10) (Nat.succ_pos m)]
        simp

theorem digitCh_toNat {d : Nat} (hd : d < 10) : (digitCh d).toNat = 48 + d := by
  interval_cases d <;> decide

theorem digitCh_inj {a b : Nat} (ha : a < 10) (hb : b < 10)
    (h : digitCh a = digitCh b) : a = b := by
  have := congrArg Char.toNat h
  rw [digitCh_toNat ha, digitCh_toNat hb] at this
  omega

theorem map_digitCh_inj : ∀ xs ys : List Nat, (∀ x ∈ xs, x < 10) → (∀ y ∈ ys, y < 10) →
    xs.map digitCh = ys.map digitCh → xs = ys := by
  intro xs
  induction xs with
  | nil => intro ys _ _ h; cases ys <;> simp_all
  | cons x rest ih =>
    intro ys hx hy h
    cases ys with
    | nil => simp at h
    | cons y yrest =>
      simp only [List.map_cons, List.cons.injEq] at h
      have e1 := digitCh_inj (hx x (by simp)) (hy y (by simp)) h.1
      have e2 := ih yrest (fun z hz => hx z (by simp [hz])) (fun z hz => hy z (by simp [hz])) h.2
      simp [e1, e2]

theorem natChars_inj {m n : Nat} (h : natChars m = natChars n) : m = n := by
  have digitsCase : ∀ k, k ≠ 0 → (Nat.digits 10 k).reverse.map digitCh = ['0'] → False := by
    intro k hk hcontra
    have hlen := congrArg List.length hcontra
    simp at hlen
    obtain ⟨d, hd⟩ : ∃ d, Nat.digits 10 k = [d] := by
      cases hdig : Nat.digits 10 k with
      | nil => rw [hdig] at hlen; simp at hlen
      | cons a t =>
        rw [hdig] at hlen
        simp at hlen
        exact ⟨a, by rw [hlen]⟩
    rw [hd] at hcontra
    simp only [List.reverse_singleton, List.map_cons, List.map_nil,
      List.cons.injEq, and_true] at hcontra
    have hd10 : d < 10 :=
      Nat.digits_lt_base (by norm_num) (show d ∈ Nat.digits 10 k by simp [hd])
    have hzero : d = 0 :=
      digitCh_inj hd10 (by norm_num) (hcontra.trans (by decide : digitCh 0 = '0').symm)
    have hk0 : k = 0 := by
      have h2 : Nat.digits 10 k = [0] := by rw [hd, hzero]
      have h3 := congrArg (Nat.ofDigits 10) h2
      rw [Nat.ofDigits_digits] at h3
      simpa [Nat.ofDigits] using h3
    exact hk hk0
  by_cases hm : m = 0 <;> by_cases hn : n = 0
  · omega
  · exfalso
    rw [natChars, natChars, if_pos hm, if_neg hn, natStrAux_eq_digits n n le_rfl] at h
    exact digitsCase n hn h.symm
  · exfalso
    rw [natChars, natChars, if_neg hm, if_pos hn, natStrAux_eq_digits m m le_rfl] at h
    exact digitsCase m hm h
  · rw [natChars, natChars, if_neg hm, if_neg hn, natStrAux_eq_digits m m le_rfl,
      natStrAux_eq_digits n n le_rfl] at h
    have hrev := map_digitCh_inj _ _
      (fun x hx => Nat.digits_lt_base (by norm_num) (List.mem_reverse.mp hx))
      (fun y hy => Nat.digits_lt_base (by norm_num) (List.mem_reverse.mp hy)) h
    have hdig : Nat.digits 10 m = Nat.digits 10 n := by
      have := congrArg List.reverse hrev
      simpa using this
    have hfin := congrArg (Nat.ofDigits 10) hdig
    rwa [Nat.ofDigits_digits, Nat.ofDigits_digits] at hfin

theorem natStr_inj {m n : Nat} (h : natStr m = natStr n) : m = n := by
  apply natChars_inj
  have := congrArg String.data h
  simpa [natStr] using this

/-! ## es-toolkit/compat `get` -/

/-- Array element addressed by a path segment: the element whose canonical
decimal index equals the segment (JavaScript array property semantics —
`a["01"]` is not `a[1]`).  `i` is the index of the list's head in the
enclosing array. -/
def arrIndexFrom : List JSValue → Nat → String → JSValue
  | [], _, _ => .undefined
  | x :: rest, i, seg => if natStr i = seg then x else arrIndexFrom rest (i + 1) seg

/-- One step of lodash-style `get`: resolve a single path segment. -/
def getSeg (v : JSValue) (seg : String) : JSValue :=
  match v with
  | .obj fs => (lookupKey fs seg).getD .undefined
  | .arr xs => arrIndexFrom xs 0 seg
  | _ => .undefined

/-- es-toolkit/compat `get(v, path)`: walk the path; never throws, yields
`undefined` wherever the path does not resolve. -/
def getPathSegs (v : JSValue) (p : FieldPath) : JSValue := p.foldl getSeg v

/-- Whether a path resolves to an actually present property (used to state
what "absent field" means for the Matcher). -/
def hasPathSegs (v : JSValue) (p : FieldPath) : Bool :=
  match p with
  | [] => true
  | [seg] =>
    match v with
    | .obj fs => (lookupKey fs seg).isSome
    | .arr xs => !(arrIndexFrom xs 0 seg == .undefined)
    | _ => false
  | seg :: rest => hasPathSegs (getSeg v seg) rest

/-- JavaScript strict equality `===` between a watched form value and a
pattern leaf.  Primitives compare by value; objects and arrays compare by
reference identity, which the embedding renders as `false` (the pattern and
the form state share no references). -/
def strictEq : JSValue → JSValue → Bool
  | .undefined, .undefined => true
  | .null, .null => true
  | .bool a, .bool b => a == b
  | .num a, .num b => a == b
  | .str a, .str b => a == b
  | _, _ => false

/-! ## es-toolkit `flattenObject` -/

/-- JavaScript object assignment `result[p] = v`: overwrite in place when the
key exists, append otherwise. -/
def upsert (acc : List (FieldPath × JSValue)) (p : FieldPath) (v : JSValue) :
    List (FieldPath × JSValue) :=
  if acc.any (fun e => e.1 = p) then
    acc.map (fun e => if e.1 = p then (p, v) else e)
  else acc ++ [(p, v)]

/-- The array branch of es-toolkit `flattenObject`: assign
`result[pk.j] = xs[j]` for every index `j ≥` the running index (elements are
not recursed into). -/
def flattenArr (pk : FieldPath) (acc : List (FieldPath × JSValue)) :
    Nat → List JSValue → List (FieldPath × JSValue)
  | _, [] => acc
  | j, x :: rest => flattenArr pk (upsert acc (pk ++ [natStr j]) x) (j + 1) rest

mutual

/-- The loop of es-toolkit `flattenObject`: iterate over the fields in
order, dispatching each value through `flattenVal` under the prefixed key. -/
def flattenFields (pre : FieldPath) (acc : List (FieldPath × JSValue)) :
    JSFields → List (FieldPath × JSValue)
  | [] => acc
  | (k, v) :: rest => flattenFields pre (flattenVal (pre ++ [k]) acc v) rest

/-- One value of es-toolkit `flattenObject`'s loop: recurse into a non-empty
plain object, expand an array one level, keep any other value as a leaf. -/
def flattenVal (pk : FieldPath) (acc : List (FieldPath × JSValue)) :
    JSValue → List (FieldPath × JSValue)
  | .obj (f :: fs) => flattenFields pk acc (f :: fs)
  | .arr xs => flattenArr pk acc 0 xs
  | v => upsert acc pk v

end

/-- es-toolkit `flattenObject` on the discriminant pattern (always a plain
object at the `useFormTypeguard` call site; the embedding returns no pairs
for a non-object). -/
def flattenObject (v : JSValue) : List (FieldPath × JSValue) :=
  match v with
  | .obj fs => flattenFields [] [] fs
  | _ => []

/-- `Object.keys(flattenObject(discriminant))` — the watched field paths of
`useFormTypeguard`, in order. -/
def discriminantKeys (d : JSValue) : List FieldPath :=
  (flattenObject d).map Prod.fst

/-- The `compute` callback of `useFormTypeguard`:
`discriminantKeys.every((key, index) => values[index] === get(discriminant, key))`,
where `values[index]` is the current form value at `discriminantKeys[index]`
(delivered by `useWatch` subscribed with `name: discriminantKeys`). -/
def codeMatches (d state : JSValue) : Bool :=
  (discriminantKeys d).all fun k => strictEq (getPathSegs state k) (getPathSegs d k)

/-! ## Reference (specification-side) definitions

`specFields`/`specVal` is the compositional form of the amended flattening
contract: the set of (path, leaf) pairs reachable by descending through
non-empty plain mappings, with an array expanded one level into its indexed
elements, and anything else — primitives, array elements, empty plain
mappings — a leaf.  The refinement theorem below proves the accumulator
loop `flattenFields` equal to it.

`claimFields`/`claimVal` is the flattening exactly as the spec sentence
describes it ("a leaf is any value that is not a plain key-value mapping;
arrays and primitives are leaves — an array value is matched for exact
equality, not descended into"): every plain mapping is descended, arrays
are kept whole. -/

/-- Array expansion of the reference flattening: `([j], xs[j])` pairs from
running index `j`. -/
def specArr : Nat → List JSValue → List (FieldPath × JSValue)
  | _, [] => []
  | j, x :: rest => ([natStr j], x) :: specArr (j + 1) rest

mutual

/-- Reference flattening of an object's fields (amended contract). -/
def specFields : JSFields → List (FieldPath × JSValue)
  | [] => []
  | (k, v) :: rest => (specVal v).map (fun e => (k :: e.1, e.2)) ++ specFields rest

/-- Reference flattening of one value (amended contract). -/
def specVal : JSValue → List (FieldPath × JSValue)
  | .obj (f :: fs) => specFields (f :: fs)
  | .arr xs => specArr 0 xs
  | v => [([], v)]

end

/-- Reference flattening of a pattern object (amended contract). -/
def flattenSpec (v : JSValue) : List (FieldPath × JSValue) :=
  match v with
  | .obj fs => specFields fs
  | _ => []

mutual

/-- Flattening of an object's fields as the spec's words describe it:
descend through every plain mapping, arrays are leaves. -/
def claimFields : JSFields → List (FieldPath × JSValue)
  | [] => []
  | (k, v) :: rest => (claimVal v).map (fun e => (k :: e.1, e.2)) ++ claimFields rest

/-- Flattening of one value as the spec's words describe it. -/
def claimVal : JSValue → List (FieldPath × JSValue)
  | .obj fs => claimFields fs
  | v => [([], v)]

end

/-- Flattening of a pattern object as the spec's words describe it. -/
def claimFlatten (v : JSValue) : List (FieldPath × JSValue) :=
  match v with
  | .obj fs => claimFields fs
  | _ => []

mutual

/-- Structural (deep) value equality, as lodash-style `isEqual`: arrays
element-wise; objects by comparing key counts and then, for every key of
the first object, deep-comparing its value with the second object's value
at that key (order-insensitive); primitives as `===`. -/
def deepEq : JSValue → JSValue → Bool
  | .arr xs, .arr ys => deepEqList xs ys
  | .obj fs, .obj gs => fs.length == gs.length && deepEqSub fs gs
  | a, b => strictEq a b

def deepEqList : List JSValue → List JSValue → Bool
  | [], [] => true
  | x :: xs, y :: ys => deepEq x y && deepEqList xs ys
  | _, _ => false

/-- Every field of the first list deep-equals the looked-up field of the
second. -/
def deepEqSub : JSFields → JSFields → Bool
  | [], _ => true
  | (k, v) :: rest, gs =>
    (match lookupKey gs k with
     | some w => deepEq v w
     | none => false) && deepEqSub rest gs

end

mutual

/-- Whether two values have identically ordered structure: the same key
lists, in the same order, at every object level, and the same lengths at
every array level (values' shapes compared pointwise). -/
def sameShape : JSValue → JSValue → Bool
  | .arr xs, .arr ys => sameShapeList xs ys
  | .obj fs, .obj gs => sameShapeFields fs gs
  | _, _ => true

def sameShapeList : List JSValue → List JSValue → Bool
  | [], [] => true
  | x :: xs, y :: ys => sameShape x y && sameShapeList xs ys
  | _, _ => false

def sameShapeFields : JSFields → JSFields → Bool
  | [], [] => true
  | (k1, v1) :: fs, (k2, v2) :: gs => k1 == k2 && sameShape v1 v2 && sameShapeFields fs gs
  | _, _ => false

end

/-- No-duplicate check for a key list. -/
def keysNodup : List String → Bool
  | [] => true
  | k :: rest => !(rest.contains k) && keysNodup rest

mutual

/-- Every object inside the value has pairwise-distinct keys — true of
every value a JavaScript program can build, since JavaScript objects cannot
carry a key twice. -/
def nodupKeys : JSValue → Bool
  | .arr xs => nodupKeysList xs
  | .obj fs => keysNodup (fs.map Prod.fst) && nodupKeysFields fs
  | _ => true

def nodupKeysList : List JSValue → Bool
  | [] => true
  | x :: rest => nodupKeys x && nodupKeysList rest

def nodupKeysFields : JSFields → Bool
  | [] => true
  | (_, v) :: rest => nodupKeys v && nodupKeysFields rest

end

/-- The matching predicate exactly as the spec sentence describes it: the
AND over the claim-side flattened pairs, with structural (deep) equality for
nested/array leaves and identity/primitive equality otherwise. -/
def claimMatches (d state : JSValue) : Bool :=
  (claimFlatten d).all fun e =>
    match e.2 with
    | .arr _ => deepEq (getPathSegs state e.1) e.2
    | .obj _ => deepEq (getPathSegs state e.1) e.2
    | _ => strictEq (getPathSegs state e.1) e.2

example : codeMatches (.obj [("kind", .str "a")])
    (.obj [("kind", .str "a"), ("value", .str "x")]) = true := by decide

example : flattenObject (.obj [("a", .obj [("b", .num 1)]), ("c", .num 2)]) =
    [(["a", "b"], .num 1), (["c"], .num 2)] := by decide

example : flattenObject (.obj [("a", .arr [.num 1, .num 2])]) =
    [(["a", "0"], .num 1), (["a", "1"], .num 2)] := by decide

example : claimFlatten (.obj [("a", .arr [.num 1, .num 2])]) =
    [(["a"], .arr [.num 1, .num 2])] := by decide

example : deepEq (.obj [("a", .num 1), ("b", .num 2)])
    (.obj [("b", .num 2), ("a", .num 1)]) = true := by decide

example : codeMatches (.obj [("a", .arr [.num 1])])
    (.obj [("a", .arr [.num 1, .num 2])]) = true := by decide

example : claimMatches (.obj [("a", .arr [.num 1])])
    (.obj [("a", .arr [.num 1, .num 2])]) = false := by decide

/-! ## String conversion and JSON serialization -/

/-- JavaScript's number-to-string conversion, for integers. -/
def intStr : Int → String
  | .ofNat m => natStr m
  | .negSucc m => "-" ++ natStr (m + 1)

mutual

/-- JavaScript's `String(x)` conversion: identity on strings, decimal on
numbers, `"undefined"`/`"null"` on the unit values, comma-join on arrays
(with empty parts for `null`/`undefined` elements), `"[object Object]"` on
plain objects. -/
def jsToString : JSValue → String
  | .undefined => "undefined"
  | .null => "null"
  | .bool b => if b then "true" else "false"
  | .num n => intStr n
  | .str s => s
  | .arr xs => joinParts xs
  | .obj _ => "[object Object]"

/-- `Array.prototype.join(",")` over the stringified elements. -/
def joinParts : List JSValue → String
  | [] => ""
  | x :: rest =>
    let s :=
      match x with
      | .undefined => ""
      | .null => ""
      | y => jsToString y
    match rest with
    | [] => s
    | _ :: _ => s ++ "," ++ joinParts rest

end

/-- JSON string escaping for quote and backslash. -/
def escChar (c : Char) : List Char :=
  if c = '"' then ['\\', '"'] else if c = '\\' then ['\\', '\\'] else [c]

/-- A JSON string literal. -/
def jsonQuote (s : String) : String :=
  "\"" ++ String.mk (s.data.map escChar).flatten ++ "\""

mutual

/-- `JSON.stringify`: `none` on `undefined` (dropped from objects, `null`
inside arrays).  `useFormTypeguard` memoizes its derived key list on
`JSON.stringify(discriminant)`. -/
def jsonStr : JSValue → Option String
  | .undefined => none
  | .null => some "null"
  | .bool b => some (if b then "true" else "false")
  | .num n => some (intStr n)
  | .str s => some (jsonQuote s)
  | .arr xs => some ("[" ++ String.intercalate "," (jsonArrParts xs) ++ "]")
  | .obj fs => some ("\x7b" ++ String.intercalate "," (jsonObjEntries fs) ++ "\x7d")

def jsonArrParts : List JSValue → List String
  | [] => []
  | x :: rest => ((jsonStr x).getD "null") :: jsonArrParts rest

def jsonObjEntries : JSFields → List String
  | [] => []
  | (k, v) :: rest =>
    match jsonStr v with
    | none => jsonObjEntries rest
    | some sv => (jsonQuote k ++ ":" ++ sv) :: jsonObjEntries rest

end

/-! ## The dispatcher (`createDiscriminatedSubmitHandler`) -/

/-- es-toolkit `omit(record, [k])`: a shallow copy of the record without
the key `k`; the argument itself is not changed (the embedding is pure, so
the checkable content of "does not mutate" is that the result agrees with
the argument on every other key — proved below). -/
def omitKey (v : JSValue) (k : String) : JSValue :=
  match v with
  | .obj fs => .obj (fs.filter fun e => !(e.1 == k))
  | w => w

/-- The runtime error thrown by the dispatcher — the spec's
`MissingHandlerError`.  The source throws
`new Error("No handler found for discriminant value: " + String(value))`. -/
structure MissingHandlerError where
  message : String
  deriving DecidableEq, Repr

/-- The dispatch closure returned by `createDiscriminatedSubmitHandler`:
read `values[discriminantKey]`, look up its handler (JavaScript property
lookup coerces the discriminant value to its string form), throw when
absent, otherwise apply the handler to `omit(values, [discriminantKey])`
and return its result unchanged.  A raised error is the `Except.error`
branch, which propagates to the caller. -/
def dispatchSubmit {R : Type} (discriminantKey : String)
    (handlers : List (String × (JSValue → R))) (values : JSValue) :
    Except MissingHandlerError R :=
  let discriminantValue := getOwn values discriminantKey
  match lookupKey handlers (jsToString discriminantValue) with
  | none =>
    .error ⟨"No handler found for discriminant value: " ++ jsToString discriminantValue⟩
  | some handler => .ok (handler (omitKey values discriminantKey))

/-- `createDiscriminatedSubmitHandler(form, discriminantKey, handlers)`:
returns the dispatch closure.  The closure body never references `form`. -/
def createDiscriminatedSubmitHandler {R F : Type} (form : F) (discriminantKey : String)
    (handlers : List (String × (JSValue → R))) : JSValue → Except MissingHandlerError R :=
  fun values => dispatchSubmit discriminantKey handlers values

/-! ## The variant accessor factory (`createDiscriminatedFormCtx`) -/

/-- An opaque handle to the single shared form state container (the
`UseFormReturn` held by the enclosing FormProvider). -/
structure FormHandle where
  controlId : Nat
  deriving DecidableEq, Repr

/-- React Hook Form's `useFormContext()`: yields the one handle stored in
the enclosing provider context. -/
def useFormContextLookup (ctx : FormHandle) : FormHandle := ctx

/-- The hook family returned by `createDiscriminatedFormCtx`.  In the
source the requested Variant Key is a type argument with no runtime
presence; the embedding reifies it as a value argument that the body never
inspects.  The runtime body of the returned hook is
`() => useFormContext()`. -/
def createDiscriminatedFormCtx : Unit → String → FormHandle → FormHandle :=
  fun _ => fun _variantKey ctx => useFormContextLookup ctx

/-! ## The reactive Matcher (`useFormTypeguard` with `useWatch`) -/

/-- Update (or append) one field of an object's field list, preserving
order. -/
def setField : JSFields → String → JSValue → JSFields
  | [], k, w => [(k, w)]
  | (k1, v1) :: rest, k, w =>
    if k1 = k then (k, w) :: rest else (k1, v1) :: setField rest k w

/-- Replace the array element addressed by a decimal segment. -/
def setArrAt : List JSValue → Nat → String → JSValue → List JSValue
  | [], _, _, _ => []
  | x :: rest, i, seg, w =>
    if natStr i = seg then w :: rest else x :: setArrAt rest (i + 1) seg w

/-- Modelled from the spec: the external state container's path-scoped
write (`form.setValue`), which this core only observes.  Sets the value at
a path, materialising intermediate objects over primitives. -/
def setPathSegs (v : JSValue) : FieldPath → JSValue → JSValue
  | [], w => w
  | seg :: rest, w =>
    match v with
    | .obj fs => .obj (setField fs seg (setPathSegs ((lookupKey fs seg).getD .undefined) rest w))
    | .arr xs => .arr (setArrAt xs 0 seg (setPathSegs (arrIndexFrom xs 0 seg) rest w))
    | _ => .obj (setField [] seg (setPathSegs .undefined rest w))

/-- The observable state of one mounted `useFormTypeguard(form, d)`: the
shared form values, the current `matches` boolean, and a probe counting how
often the `compute` callback ran. -/
structure MatcherState where
  formValues : JSValue
  isMatching : Bool
  computeCount : Nat
  deriving DecidableEq, Repr

/-- The matcher as first mounted: `useWatch` runs `compute` once on the
initial values. -/
def initMatcher (d state0 : JSValue) : MatcherState :=
  { formValues := state0, isMatching := codeMatches d state0, computeCount := 1 }

/-- One notified change to the shared container: the value at `path`
becomes `w`.  `useWatch` is subscribed with `name: discriminantKeys d` —
exactly the flattened pattern paths, never the whole record — so `compute`
reruns exactly when the changed path is one of them; otherwise `matches`
and the probe are untouched. -/
def notifyChange (d : JSValue) (ms : MatcherState) (path : FieldPath) (w : JSValue) :
    MatcherState :=
  let newValues := setPathSegs ms.formValues path w
  if path ∈ discriminantKeys d then
    { formValues := newValues
      isMatching := codeMatches d newValues
      computeCount := ms.computeCount + 1 }
  else
    { formValues := newValues
      isMatching := ms.isMatching
      computeCount := ms.computeCount }

example :
    (notifyChange (.obj [("kind", .str "a")])
      (initMatcher (.obj [("kind", .str "a")]) (.obj [("kind", .str "a"), ("value", .str "x")]))
      ["kind"] (.str "b")).isMatching = false := by decide

example :
    (initMatcher (.obj [("kind", .str "a")])
      (.obj [("kind", .str "a"), ("value", .str "x")])).isMatching = true := by decide

example : jsonStr (.obj [("a", .num 1), ("b", .num 2)]) =
    some "\x7b\"a\":1,\"b\":2\x7d" := by decide

example : jsToString (.str "b") = "b" := by decide

example : (dispatchSubmit "kind" [("a", fun v => v)]
    (.obj [("kind", .str "b"), ("value", .num 5)])) =
    .error ⟨"No handler found for discriminant value: b"⟩ := rfl

example : (dispatchSubmit "kind" [("a", fun _ => JSValue.null), ("b", fun v => v)]
    (.obj [("kind", .str "b"), ("value", .num 5)])) =
    .ok (.obj [("value", .num 5)]) := rfl

/-! ## The flattening refinement: the accumulator loop computes the
compositional reference flattening -/

theorem upsert_of_not_mem {acc : List (FieldPath × JSValue)} {p : FieldPath} (v : JSValue)
    (h : p ∉ acc.map Prod.fst) : upsert acc p v = acc ++ [(p, v)] := by
  rw [upsert, if_neg]
  simp only [List.any_eq_true, decide_eq_true_eq, not_exists, not_and]
  intro e he hep
  exact h (List.mem_map.mpr ⟨e, he, hep⟩)

theorem specArr_shape : ∀ (xs : List JSValue) (j : Nat) (e : FieldPath × JSValue),
    e ∈ specArr j xs → ∃ i, j ≤ i ∧ e.1 = [natStr i] := by
  intro xs
  induction xs with
  | nil => intro j e h; simp [specArr] at h
  | cons x rest ih =>
    intro j e h
    rw [specArr] at h
    rcases List.mem_cons.mp h with h1 | h2
    · exact ⟨j, le_rfl, by rw [h1]⟩
    · obtain ⟨i, hi, he⟩ := ih (j + 1) e h2
      exact ⟨i, by omega, he⟩

theorem flattenArr_eq_spec : ∀ (xs : List JSValue) (j : Nat) (pk : FieldPath)
    (acc : List (FieldPath × JSValue)),
    (∀ e ∈ specArr j xs, (pk ++ e.1) ∉ acc.map Prod.fst) →
    flattenArr pk acc j xs = acc ++ (specArr j xs).map (fun e => (pk ++ e.1, e.2)) := by
  intro xs
  induction xs with
  | nil => intro j pk acc _; simp [flattenArr, specArr]
  | cons x rest ih =>
    intro j pk acc hfresh
    rw [flattenArr, specArr]
    have hhead : ([natStr j], x) ∈ specArr j (x :: rest) := by rw [specArr]; simp
    rw [upsert_of_not_mem x (hfresh ([natStr j], x) hhead)]
    rw [ih (j + 1) pk (acc ++ [(pk ++ [natStr j], x)]) ?_]
    · simp
    · intro e he
      simp only [List.map_append, List.mem_append, List.map_cons, List.map_nil,
        List.mem_singleton]
      rintro (hin | hin)
      · exact hfresh e (by rw [specArr]; exact List.mem_cons_of_mem _ he) hin
      · obtain ⟨i, hij, hei⟩ := specArr_shape rest (j + 1) e he
        rw [hei] at hin
        have : natStr i = natStr j := by
          have := List.append_cancel_left hin
          simpa using this
        have := natStr_inj this
        omega

theorem specFields_shape : ∀ (fields : JSFields) (e : FieldPath × JSValue),
    e ∈ specFields fields → ∃ k t, e.1 = k :: t ∧ k ∈ fields.map Prod.fst := by
  intro fields
  induction fields with
  | nil => intro e h; simp [specFields] at h
  | cons f rest ih =>
    obtain ⟨k, v⟩ := f
    intro e h
    rw [specFields] at h
    rcases List.mem_append.mp h with h1 | h2
    · obtain ⟨e0, _, he0⟩ := List.mem_map.mp h1
      exact ⟨k, e0.1, by rw [← he0], by simp⟩
    · obtain ⟨k2, t, het, hk2⟩ := ih e h2
      exact ⟨k2, t, het, by simp [hk2]⟩

theorem flatten_refines_spec (n : Nat) :
    (∀ fields : JSFields, sizeOf fields ≤ n →
      ∀ (pre : FieldPath) (acc : List (FieldPath × JSValue)),
        keysNodup (fields.map Prod.fst) = true →
        nodupKeysFields fields = true →
        (∀ e ∈ specFields fields, (pre ++ e.1) ∉ acc.map Prod.fst) →
        flattenFields pre acc fields =
          acc ++ (specFields fields).map (fun e => (pre ++ e.1, e.2))) ∧
    (∀ v : JSValue, sizeOf v ≤ n →
      ∀ (pk : FieldPath) (acc : List (FieldPath × JSValue)),
        nodupKeys v = true →
        (∀ e ∈ specVal v, (pk ++ e.1) ∉ acc.map Prod.fst) →
        flattenVal pk acc v = acc ++ (specVal v).map (fun e => (pk ++ e.1, e.2))) := by
  induction n with
  | zero =>
    constructor
    · intro fields h
      exfalso
      cases fields <;> simp at h
    · intro v h
      exfalso
      cases v <;> simp at h
  | succ n ih =>
    obtain ⟨ihF, ihV⟩ := ih
    constructor
    · intro fields hsz pre acc hnodup hnodupF hfresh
      match fields with
      | [] => simp [flattenFields, specFields]
      | (k, v) :: rest =>
        rw [flattenFields, specFields]
        have hszv : sizeOf v ≤ n := by simp at hsz; omega
        have hszrest : sizeOf rest ≤ n := by simp at hsz; omega
        have hnodupv : nodupKeys v = true := by
          rw [nodupKeysFields, Bool.and_eq_true] at hnodupF
          exact hnodupF.1
        have hnodupFrest : nodupKeysFields rest = true := by
          rw [nodupKeysFields, Bool.and_eq_true] at hnodupF
          exact hnodupF.2
        have hknotin : k ∉ rest.map Prod.fst := by
          rw [List.map_cons, keysNodup, Bool.and_eq_true] at hnodup
          simpa using hnodup.1
        have hnoduprest : keysNodup (rest.map Prod.fst) = true := by
          rw [List.map_cons, keysNodup, Bool.and_eq_true] at hnodup
          exact hnodup.2
        have hv := ihV v hszv (pre ++ [k]) acc hnodupv ?_
        · rw [hv]
          have hrest := ihF rest hszrest pre
            (acc ++ (specVal v).map (fun e => (pre ++ [k] ++ e.1, e.2)))
            hnoduprest hnodupFrest ?_
          · rw [hrest]
            have hcomp : ((specVal v).map (fun e => ((k : String) :: e.1, e.2))).map
                (fun e => (pre ++ e.1, e.2)) =
                (specVal v).map (fun e => (pre ++ [k] ++ e.1, e.2)) := by
              rw [List.map_map]
              apply List.map_congr_left
              intro e _
              simp
            rw [List.map_append, hcomp, List.append_assoc]
          · intro e he
            simp only [List.map_append, List.mem_append, List.map_map]
            rintro (hin | hin)
            · exact hfresh e (by rw [specFields]; exact List.mem_append_right _ he) hin
            · obtain ⟨e0, _, he0⟩ := List.mem_map.mp hin
              obtain ⟨k2, t, het, hk2⟩ := specFields_shape rest e he
              have : pre ++ e.1 = pre ++ (k :: e0.1) := by
                rw [← he0]
                simp
              have hcase := List.append_cancel_left this
              rw [het] at hcase
              injection hcase with hkk _
              exact hknotin (hkk ▸ hk2)
        · intro e he
          have hmem : (k :: e.1, e.2) ∈ specFields ((k, v) :: rest) := by
            rw [specFields]
            exact List.mem_append_left _ (List.mem_map.mpr ⟨e, he, rfl⟩)
          have := hfresh (k :: e.1, e.2) hmem
          simpa using this
    · intro v hsz pk acc hnodup hfresh
      cases v with
      | undefined =>
        rw [show flattenVal pk acc .undefined = upsert acc pk .undefined from rfl,
          upsert_of_not_mem _ (by simpa using hfresh ([], .undefined) (by simp [specVal]))]
        simp [specVal]
      | null =>
        rw [show flattenVal pk acc .null = upsert acc pk .null from rfl,
          upsert_of_not_mem _ (by simpa using hfresh ([], .null) (by simp [specVal]))]
        simp [specVal]
      | bool b =>
        rw [show flattenVal pk acc (.bool b) = upsert acc pk (.bool b) from rfl,
          upsert_of_not_mem _ (by simpa using hfresh ([], .bool b) (by simp [specVal]))]
        simp [specVal]
      | num m =>
        rw [show flattenVal pk acc (.num m) = upsert acc pk (.num m) from rfl,
          upsert_of_not_mem _ (by simpa using hfresh ([], .num m) (by simp [specVal]))]
        simp [specVal]
      | str s =>
        rw [show flattenVal pk acc (.str s) = upsert acc pk (.str s) from rfl,
          upsert_of_not_mem _ (by simpa using hfresh ([], .str s) (by simp [specVal]))]
        simp [specVal]
      | arr xs =>
        rw [show flattenVal pk acc (.arr xs) = flattenArr pk acc 0 xs from rfl,
          show specVal (.arr xs) = specArr 0 xs from rfl]
        exact flattenArr_eq_spec xs 0 pk acc fun e he => hfresh e (by simp [specVal, he])
      | obj fs =>
        cases fs with
        | nil =>
          rw [show flattenVal pk acc (.obj []) = upsert acc pk (.obj []) from rfl,
            upsert_of_not_mem _ (by simpa using hfresh ([], .obj []) (by simp [specVal]))]
          simp [specVal]
        | cons f fs =>
          rw [show flattenVal pk acc (.obj (f :: fs)) = flattenFields pk acc (f :: fs) from rfl,
            show specVal (.obj (f :: fs)) = specFields (f :: fs) from rfl]
          have hsz2 : sizeOf (f :: fs) ≤ n := by simp at hsz ⊢; omega
          rw [nodupKeys, Bool.and_eq_true] at hnodup
          exact ihF (f :: fs) hsz2 pk acc hnodup.1 hnodup.2
            fun e he => hfresh e (by simp [specVal, he])

/-- es-toolkit's `flattenObject` computes exactly the compositional
reference flattening, for every pattern whose objects have
pairwise-distinct keys (true of every value built by a JavaScript
program). -/
theorem flattenObject_eq_spec {d : JSValue} (h : nodupKeys d = true) :
    flattenObject d = flattenSpec d := by
  cases d with
  | obj fs =>
    rw [flattenObject, flattenSpec]
    rw [nodupKeys, Bool.and_eq_true] at h
    have := (flatten_refines_spec (sizeOf fs)).1 fs le_rfl [] [] h.1 h.2 (by simp)
    rw [this]
    simp
  | undefined => rfl
  | null => rfl
  | bool b => rfl
  | num m => rfl
  | str s => rfl
  | arr xs => rfl

/-! ## The roundtrip: every flattened pair evaluates back through `get` -/

theorem arrIndexFrom_natStr : ∀ (xs : List JSValue) (j i : Nat),
    arrIndexFrom xs j (natStr (j + i)) = xs.getD i .undefined := by
  intro xs
  induction xs with
  | nil => intro j i; simp [arrIndexFrom, List.getD]
  | cons x rest ih =>
    intro j i
    rw [arrIndexFrom]
    by_cases hi : i = 0
    · subst hi
      simp
    · rw [if_neg]
      · obtain ⟨i2, rfl⟩ : ∃ i2, i = i2 + 1 := ⟨i - 1, by omega⟩
        have harith : j + (i2 + 1) = (j + 1) + i2 := by omega
        rw [harith, ih (j + 1) i2]
        simp [List.getD]
      · intro hcontra
        have := natStr_inj hcontra
        omega

theorem specArr_mem : ∀ (xs : List JSValue) (j : Nat) (p : FieldPath) (w : JSValue),
    (p, w) ∈ specArr j xs → ∃ i, p = [natStr (j + i)] ∧ xs.getD i .undefined = w := by
  intro xs
  induction xs with
  | nil => intro j p w h; simp [specArr] at h
  | cons x rest ih =>
    intro j p w h
    rw [specArr] at h
    rcases List.mem_cons.mp h with h1 | h2
    · rw [Prod.mk.injEq] at h1
      exact ⟨0, by simp [h1.1], by simp [h1.2]⟩
    · obtain ⟨i, hp, hw⟩ := ih (j + 1) p w h2
      refine ⟨i + 1, ?_, by simpa [List.getD] using hw⟩
      rw [hp]
      congr 2
      omega

theorem spec_roundtrip (n : Nat) :
    (∀ fields : JSFields, sizeOf fields ≤ n →
      keysNodup (fields.map Prod.fst) = true →
      nodupKeysFields fields = true →
      ∀ p w, (p, w) ∈ specFields fields → getPathSegs (.obj fields) p = w) ∧
    (∀ v : JSValue, sizeOf v ≤ n →
      nodupKeys v = true →
      ∀ p w, (p, w) ∈ specVal v → getPathSegs v p = w) := by
  induction n with
  | zero =>
    constructor
    · intro fields h
      exfalso
      cases fields <;> simp at h
    · intro v h
      exfalso
      cases v <;> simp at h
  | succ n ih =>
    obtain ⟨ihF, ihV⟩ := ih
    constructor
    · intro fields hsz hnodup hnodupF p w hm
      match fields with
      | [] => simp [specFields] at hm
      | (k, v) :: rest =>
        have hszv : sizeOf v ≤ n := by simp at hsz; omega
        have hszrest : sizeOf rest ≤ n := by simp at hsz; omega
        have hnodupv : nodupKeys v = true := by
          rw [nodupKeysFields, Bool.and_eq_true] at hnodupF
          exact hnodupF.1
        have hnodupFrest : nodupKeysFields rest = true := by
          rw [nodupKeysFields, Bool.and_eq_true] at hnodupF
          exact hnodupF.2
        have hknotin : k ∉ rest.map Prod.fst := by
          rw [List.map_cons, keysNodup, Bool.and_eq_true] at hnodup
          simpa using hnodup.1
        have hnoduprest : keysNodup (rest.map Prod.fst) = true := by
          rw [List.map_cons, keysNodup, Bool.and_eq_true] at hnodup
          exact hnodup.2
        rw [specFields] at hm
        rcases List.mem_append.mp hm with h1 | h2
        · obtain ⟨e, he, hee⟩ := List.mem_map.mp h1
          rw [Prod.mk.injEq] at hee
          obtain ⟨hp, hw⟩ := hee
          rw [← hp]
          have hstep : getPathSegs (.obj ((k, v) :: rest)) (k :: e.1) = getPathSegs v e.1 := by
            rw [getPathSegs, List.foldl_cons]
            rw [show getSeg (.obj ((k, v) :: rest)) k = v by simp [getSeg, lookupKey]]
            rfl
          rw [hstep]
          rw [← hw]
          exact ihV v hszv hnodupv e.1 e.2 (by rwa [show (e.1, e.2) = e from rfl])
        · obtain ⟨k2, t, hpt, hk2⟩ := specFields_shape rest (p, w) h2
          have hpt2 : p = k2 :: t := hpt
          have hk2ne : k2 ≠ k := fun hcontr => hknotin (hcontr ▸ hk2)
          have hstep : getPathSegs (.obj ((k, v) :: rest)) p = getPathSegs (.obj rest) p := by
            rw [hpt2, getPathSegs, getPathSegs, List.foldl_cons, List.foldl_cons]
            congr 1
            simp [getSeg, lookupKey, if_neg (Ne.symm hk2ne)]
          rw [hstep]
          exact ihF rest hszrest hnoduprest hnodupFrest p w h2
    · intro v hsz hnodup p w hm
      cases v with
      | undefined =>
        rw [show specVal .undefined = [([], .undefined)] from rfl] at hm
        simp at hm
        rw [hm.1, hm.2]
        rfl
      | null =>
        rw [show specVal .null = [([], .null)] from rfl] at hm
        simp at hm
        rw [hm.1, hm.2]
        rfl
      | bool b =>
        rw [show specVal (.bool b) = [([], .bool b)] from rfl] at hm
        simp at hm
        rw [hm.1, hm.2]
        rfl
      | num m =>
        rw [show specVal (.num m) = [([], .num m)] from rfl] at hm
        simp at hm
        rw [hm.1, hm.2]
        rfl
      | str s =>
        rw [show specVal (.str s) = [([], .str s)] from rfl] at hm
        simp at hm
        rw [hm.1, hm.2]
        rfl
      | arr xs =>
        rw [show specVal (.arr xs) = specArr 0 xs from rfl] at hm
        obtain ⟨i, hp, hw⟩ := specArr_mem xs 0 p w hm
        rw [hp, ← hw]
        rw [getPathSegs, List.foldl_cons, List.foldl_nil]
        rw [show getSeg (.arr xs) (natStr (0 + i)) = arrIndexFrom xs 0 (natStr (0 + i)) from rfl]
        rw [show (0 : Nat) + i = 0 + i from rfl, arrIndexFrom_natStr xs 0 i]
      | obj fs =>
        cases fs with
        | nil =>
          rw [show specVal (.obj []) = [([], .obj [])] from rfl] at hm
          simp at hm
          rw [hm.1, hm.2]
          rfl
        | cons f fs =>
          rw [show specVal (.obj (f :: fs)) = specFields (f :: fs) from rfl] at hm
          have hsz2 : sizeOf (f :: fs) ≤ n := by simp at hsz ⊢; omega
          rw [nodupKeys, Bool.and_eq_true] at hnodup
          exact ihF (f :: fs) hsz2 hnodup.1 hnodup.2 p w hm

/-- Every pair produced by `flattenObject` evaluates back to its leaf value
through es-toolkit/compat `get` on the pattern itself — so the source's
`get(discriminant, key)` recovers exactly the flattened leaf values. -/
theorem flattenObject_roundtrip {d : JSValue} (h : nodupKeys d = true) :
    ∀ p w, (p, w) ∈ flattenObject d → getPathSegs d p = w := by
  intro p w hm
  rw [flattenObject_eq_spec h] at hm
  cases d with
  | obj fs =>
    rw [flattenSpec] at hm
    rw [nodupKeys, Bool.and_eq_true] at h
    exact (spec_roundtrip (sizeOf fs)).1 fs le_rfl h.1 h.2 p w hm
  | undefined => simp [flattenSpec] at hm
  | null => simp [flattenSpec] at hm
  | bool b => simp [flattenSpec] at hm
  | num m => simp [flattenSpec] at hm
  | str s => simp [flattenSpec] at hm
  | arr xs => simp [flattenSpec] at hm

/-- The Matcher's boolean, characterised over the flattened pairs: it is
the conjunction of the strict comparisons of the current value at each
flattened path against that pair's leaf value. -/
theorem codeMatches_iff_pairs {d : JSValue} (h : nodupKeys d = true) (s : JSValue) :
    codeMatches d s = true ↔
      ∀ p w, (p, w) ∈ flattenObject d → strictEq (getPathSegs s p) w = true := by
  rw [codeMatches, discriminantKeys, List.all_eq_true]
  constructor
  · intro hall p w hm
    have hk := hall p (List.mem_map.mpr ⟨(p, w), hm, rfl⟩)
    rw [flattenObject_roundtrip h p w hm] at hk
    exact hk
  · intro hp k hk
    obtain ⟨e, he, hek⟩ := List.mem_map.mp hk
    obtain ⟨p, w⟩ := e
    cases hek
    rw [flattenObject_roundtrip h p w he]
    exact hp p w he

/-! ## Deep equality, ordered shapes, and the memoization key -/

theorem strictEq_sound : ∀ a b : JSValue, strictEq a b = true → a = b := by
  intro a b h
  cases a <;> cases b <;> simp_all [strictEq]

theorem deepEqSub_cons_of_ne {fs : JSFields} {k : String} {w : JSValue} {gs : JSFields}
    (h : ∀ e ∈ fs, e.1 ≠ k) :
    deepEqSub fs ((k, w) :: gs) = deepEqSub fs gs := by
  induction fs with
  | nil => rfl
  | cons e rest ih =>
    obtain ⟨k1, v1⟩ := e
    rw [deepEqSub, deepEqSub]
    rw [show lookupKey ((k, w) :: gs) k1 = lookupKey gs k1 by
      rw [lookupKey, if_neg]
      exact fun hc => h (k1, v1) (by simp) (by simp [hc.symm])]
    rw [ih fun e he => h e (by simp [he])]

theorem eq_of_deepEq_sameShape (n : Nat) :
    (∀ v : JSValue, sizeOf v ≤ n → nodupKeys v = true →
      ∀ u, deepEq v u = true → sameShape v u = true → v = u) ∧
    (∀ xs : List JSValue, sizeOf xs ≤ n → nodupKeysList xs = true →
      ∀ ys, deepEqList xs ys = true → sameShapeList xs ys = true → xs = ys) ∧
    (∀ fs : JSFields, sizeOf fs ≤ n → keysNodup (fs.map Prod.fst) = true →
      nodupKeysFields fs = true →
      ∀ gs, deepEqSub fs gs = true → sameShapeFields fs gs = true → fs = gs) := by
  induction n with
  | zero =>
    refine ⟨?_, ?_, ?_⟩
    · intro v h
      exfalso
      cases v <;> simp at h
    · intro xs h
      exfalso
      cases xs <;> simp at h
    · intro fs h
      exfalso
      cases fs <;> simp at h
  | succ n ih =>
    obtain ⟨ihV, ihL, ihF⟩ := ih
    refine ⟨?_, ?_, ?_⟩
    · intro v hsz hnodup u hdeep hshape
      cases v with
      | undefined => exact strictEq_sound _ u hdeep
      | null => exact strictEq_sound _ u hdeep
      | bool b => exact strictEq_sound _ u hdeep
      | num m => exact strictEq_sound _ u hdeep
      | str s => exact strictEq_sound _ u hdeep
      | arr xs =>
        cases u with
        | arr ys =>
          have hsz2 : sizeOf xs ≤ n := by simp at hsz; omega
          rw [show nodupKeys (.arr xs) = nodupKeysList xs from rfl] at hnodup
          exact congrArg JSValue.arr (ihL xs hsz2 hnodup ys hdeep hshape)
        | undefined => simp [deepEq, strictEq] at hdeep
        | null => simp [deepEq, strictEq] at hdeep
        | bool y => simp [deepEq, strictEq] at hdeep
        | num y => simp [deepEq, strictEq] at hdeep
        | str y => simp [deepEq, strictEq] at hdeep
        | obj gs => simp [deepEq, strictEq] at hdeep
      | obj fs =>
        cases u with
        | obj gs =>
          have hsz2 : sizeOf fs ≤ n := by simp at hsz; omega
          rw [show nodupKeys (.obj fs) =
            (keysNodup (fs.map Prod.fst) && nodupKeysFields fs) from rfl,
            Bool.and_eq_true] at hnodup
          rw [show deepEq (.obj fs) (.obj gs) =
            (fs.length == gs.length && deepEqSub fs gs) from rfl,
            Bool.and_eq_true] at hdeep
          exact congrArg JSValue.obj
            (ihF fs hsz2 hnodup.1 hnodup.2 gs hdeep.2 hshape)
        | undefined => simp [deepEq, strictEq] at hdeep
        | null => simp [deepEq, strictEq] at hdeep
        | bool y => simp [deepEq, strictEq] at hdeep
        | num y => simp [deepEq, strictEq] at hdeep
        | str y => simp [deepEq, strictEq] at hdeep
        | arr ys => simp [deepEq, strictEq] at hdeep
    · intro xs hsz hnodup ys hdeep hshape
      match xs, ys with
      | [], [] => rfl
      | [], y :: ys => simp [sameShapeList] at hshape
      | x :: xs, [] => simp [sameShapeList] at hshape
      | x :: xs, y :: ys =>
        rw [deepEqList, Bool.and_eq_true] at hdeep
        rw [sameShapeList, Bool.and_eq_true] at hshape
        rw [nodupKeysList, Bool.and_eq_true] at hnodup
        have hszx : sizeOf x ≤ n := by simp at hsz; omega
        have hszxs : sizeOf xs ≤ n := by simp at hsz; omega
        rw [ihV x hszx hnodup.1 y hdeep.1 hshape.1,
          ihL xs hszxs hnodup.2 ys hdeep.2 hshape.2]
    · intro fs hsz hnodup hnodupF gs hdeep hshape
      match fs, gs with
      | [], [] => rfl
      | [], g :: gs => simp [sameShapeFields] at hshape
      | (k, v) :: fs, [] => simp [sameShapeFields] at hshape
      | (k, v) :: fs, (k2, v2) :: gs =>
        rw [sameShapeFields, Bool.and_eq_true, Bool.and_eq_true] at hshape
        obtain ⟨⟨hkk, hvshape⟩, hfshape⟩ := hshape
        have hkk2 : k = k2 := by simpa using hkk
        subst hkk2
        rw [List.map_cons, keysNodup, Bool.and_eq_true] at hnodup
        have hknotin : k ∉ fs.map Prod.fst := by simpa using hnodup.1
        rw [nodupKeysFields, Bool.and_eq_true] at hnodupF
        rw [deepEqSub, Bool.and_eq_true] at hdeep
        obtain ⟨hhead, htail⟩ := hdeep
        rw [show lookupKey ((k, v2) :: gs) k = some v2 by rw [lookupKey, if_pos rfl]] at hhead
        have hszv : sizeOf v ≤ n := by simp at hsz; omega
        have hszfs : sizeOf fs ≤ n := by simp at hsz; omega
        have hv : v = v2 := ihV v hszv hnodupF.1 v2 hhead hvshape
        rw [deepEqSub_cons_of_ne (fun e he hc =>
          hknotin (List.mem_map.mpr ⟨e, he, hc⟩))] at htail
        have hfs : fs = gs := ihF fs hszfs hnodup.2 hnodupF.2 gs htail hfshape
        rw [hv, hfs]

/-! ## The `omit` frame property -/

theorem lookupKey_filter_ne (fs : JSFields) (k k2 : String) :
    lookupKey (fs.filter fun e => !(e.1 == k)) k2 =
      if k2 = k then none else lookupKey fs k2 := by
  induction fs with
  | nil => simp [lookupKey]
  | cons e rest ih =>
    obtain ⟨k1, v1⟩ := e
    by_cases h1 : k1 = k
    · subst h1
      rw [List.filter_cons_of_neg (by simp)]
      rw [ih, lookupKey]
      by_cases h2 : k2 = k1
      · simp [h2]
      · simp [h2, Ne.symm h2]
    · rw [List.filter_cons_of_pos (by simp [h1])]
      rw [lookupKey, lookupKey, ih]
      by_cases h2 : k1 = k2
      · subst h2
        simp [h1]
      · simp [h2]

/-- The frame property of es-toolkit `omit`: the result has no binding for
the removed key and agrees with the argument on every other key. -/
theorem getOwn_omitKey (v : JSValue) (k k2 : String) :
    getOwn (omitKey v k) k2 = if k2 = k then .undefined else getOwn v k2 := by
  cases v with
  | obj fs =>
    rw [show omitKey (.obj fs) k = .obj (fs.filter fun e => !(e.1 == k)) from rfl]
    rw [getOwn, getOwn, lookupKey_filter_ne]
    by_cases h : k2 = k <;> simp [h]
  | undefined => simp [omitKey, getOwn]
  | null => simp [omitKey, getOwn]
  | bool b => simp [omitKey, getOwn]
  | num m => simp [omitKey, getOwn]
  | str s => simp [omitKey, getOwn]
  | arr xs => simp [omitKey, getOwn]

/-! ## Claim theorems -/

/-- Claim C1, counterexample: for pattern `{a:[1]}` and state `{a:[1,2]}`
the Matcher's boolean is `true` — the pattern array was flattened
element-wise and element 0 matches strictly — while the claimed semantics
(structural deep equality of the whole array leaf over the claim's
flattening) yields `false`, so `matches` does not equal the claimed
conjunction at this input. -/
theorem C1_counterexample :
    codeMatches (.obj [("a", .arr [.num 1])]) (.obj [("a", .arr [.num 1, .num 2])]) = true ∧
    claimMatches (.obj [("a", .arr [.num 1])]) (.obj [("a", .arr [.num 1, .num 2])]) = false ∧
    codeMatches (.obj [("a", .arr [.num 1])]) (.obj [("a", .arr [.num 1, .num 2])]) ≠
      claimMatches (.obj [("a", .arr [.num 1])]) (.obj [("a", .arr [.num 1, .num 2])]) :=
  ⟨by decide, by decide, by decide⟩

/-- Claim C1, amended: for every pattern (with the pairwise-distinct keys
every JavaScript object has) and every state, `matches` equals the logical
AND, over every (path, expectedValue) pair of the flattened pattern, of
"current value at path `===` expectedValue", where the flattening expands
an array leaf element-wise into indexed paths (so arrays are compared
element-by-element through their flattened elements, not by whole-array
deep equality).  In particular, for state `{kind:"a", value:"x"}` the
pattern `{kind:"a"}` matches, and after `kind` changes to `"b"` the same
matcher recomputes to `false`. -/
theorem C1_matches_and_of_strict_comparisons (d s : JSValue) (h : nodupKeys d = true) :
    (codeMatches d s = true ↔
      ∀ p w, (p, w) ∈ flattenObject d → strictEq (getPathSegs s p) w = true) ∧
    (initMatcher (.obj [("kind", .str "a")])
      (.obj [("kind", .str "a"), ("value", .str "x")])).isMatching = true ∧
    (notifyChange (.obj [("kind", .str "a")])
      (initMatcher (.obj [("kind", .str "a")])
        (.obj [("kind", .str "a"), ("value", .str "x")]))
      ["kind"] (.str "b")).isMatching = false :=
  ⟨codeMatches_iff_pairs h s, by decide, by decide⟩

/-- Claim C1, witness at a concrete input. -/
theorem C1_matches_and_of_strict_comparisons_witness :
    nodupKeys (.obj [("kind", .str "a")]) = true ∧
    (codeMatches (.obj [("kind", .str "a")])
        (.obj [("kind", .str "a"), ("value", .str "x")]) = true ↔
      ∀ p w, (p, w) ∈ flattenObject (.obj [("kind", .str "a")]) →
        strictEq (getPathSegs (.obj [("kind", .str "a"), ("value", .str "x")]) p) w = true) :=
  ⟨by decide,
    (C1_matches_and_of_strict_comparisons (.obj [("kind", .str "a")])
      (.obj [("kind", .str "a"), ("value", .str "x")]) (by decide)).1⟩

/-- Claim C2: when the snapshot's discriminant value has a registered
handler, the dispatcher returns exactly that handler's result applied to
the snapshot with the discriminant field removed; every other field reaches
the handler unchanged; and the outcome does not depend on any other entry
of the handler table (so no other handler can have been invoked). -/
theorem C2_dispatch_routes_to_registered_handler {R : Type} (discriminantKey : String)
    (handlers : List (String × (JSValue → R))) (values : JSValue) (h : JSValue → R)
    (hlook : lookupKey handlers (jsToString (getOwn values discriminantKey)) = some h) :
    dispatchSubmit discriminantKey handlers values =
      .ok (h (omitKey values discriminantKey)) ∧
    (∀ k2, k2 ≠ discriminantKey →
      getOwn (omitKey values discriminantKey) k2 = getOwn values k2) ∧
    getOwn (omitKey values discriminantKey) discriminantKey = .undefined ∧
    (∀ handlers2 : List (String × (JSValue → R)),
      lookupKey handlers2 (jsToString (getOwn values discriminantKey)) = some h →
      dispatchSubmit discriminantKey handlers2 values =
        dispatchSubmit discriminantKey handlers values) := by
  refine ⟨?_, ?_, ?_, ?_⟩
  · rw [dispatchSubmit]
    simp only [hlook]
  · intro k2 hne
    rw [getOwn_omitKey]
    simp [hne]
  · rw [getOwn_omitKey]
    simp
  · intro handlers2 hlook2
    rw [dispatchSubmit, dispatchSubmit]
    simp only [hlook, hlook2]

/-- Claim C2, witness: handlers `{a: h1, b: h2}` with snapshot
`{kind:"b", value:5}` dispatch to `h2` applied to `{value:5}`. -/
theorem C2_dispatch_routes_to_registered_handler_witness :
    lookupKey [("a", fun (_ : JSValue) => JSValue.null), ("b", fun (v : JSValue) => v)]
      (jsToString (getOwn (.obj [("kind", .str "b"), ("value", .num 5)]) "kind")) =
      some (fun v => v) ∧
    dispatchSubmit "kind" [("a", fun (_ : JSValue) => JSValue.null), ("b", fun (v : JSValue) => v)]
      (.obj [("kind", .str "b"), ("value", .num 5)]) =
      .ok (.obj [("value", .num 5)]) := by
  have hlook : lookupKey
      [("a", fun (_ : JSValue) => JSValue.null), ("b", fun (v : JSValue) => v)]
      (jsToString (getOwn (.obj [("kind", .str "b"), ("value", .num 5)]) "kind")) =
      some (fun v => v) := rfl
  refine ⟨hlook, ?_⟩
  rw [(C2_dispatch_routes_to_registered_handler "kind" _ _ _ hlook).1]
  rfl

/-- Claim C3: the dispatcher produces a `MissingHandlerError` precisely
when the snapshot's discriminant value has no entry in the handler table
(the error value is returned synchronously and propagates — an
`Except.error` reaches the caller unchanged); and every such error's
message contains the literal unmatched discriminant value. -/
theorem C3_missing_handler_error {R : Type} (discriminantKey : String)
    (handlers : List (String × (JSValue → R))) (values : JSValue) :
    ((∃ e : MissingHandlerError, dispatchSubmit discriminantKey handlers values = .error e) ↔
      lookupKey handlers (jsToString (getOwn values discriminantKey)) = none) ∧
    (∀ e : MissingHandlerError, dispatchSubmit discriminantKey handlers values = .error e →
      ∃ pre post, e.message =
        pre ++ jsToString (getOwn values discriminantKey) ++ post) := by
  constructor
  · constructor
    · rintro ⟨e, he⟩
      cases hl : lookupKey handlers (jsToString (getOwn values discriminantKey)) with
      | none => rfl
      | some hh =>
        rw [dispatchSubmit] at he
        simp only [hl] at he
        exact Except.noConfusion he
    · intro hnone
      refine ⟨⟨"No handler found for discriminant value: " ++
        jsToString (getOwn values discriminantKey)⟩, ?_⟩
      rw [dispatchSubmit]
      simp only [hnone]
  · intro e he
    refine ⟨"No handler found for discriminant value: ", "", ?_⟩
    cases hl : lookupKey handlers (jsToString (getOwn values discriminantKey)) with
    | some hh =>
      rw [dispatchSubmit] at he
      simp only [hl] at he
      exact Except.noConfusion he
    | none =>
      rw [dispatchSubmit] at he
      simp only [hl, Except.error.injEq] at he
      rw [← he]
      simp

/-- Claim C3, witness: handlers `{a: h1}` with snapshot
`{kind:"b", value:5}` raise a `MissingHandlerError` whose message contains
`"b"`. -/
theorem C3_missing_handler_error_witness :
    dispatchSubmit "kind" [("a", fun (_ : JSValue) => JSValue.null)]
      (.obj [("kind", .str "b"), ("value", .num 5)]) =
      .error ⟨"No handler found for discriminant value: b"⟩ ∧
    ∃ pre post, ("No handler found for discriminant value: b" : String) =
      pre ++ jsToString (getOwn (.obj [("kind", .str "b"), ("value", .num 5)]) "kind") ++ post := by
  have hd : dispatchSubmit "kind" [("a", fun (_ : JSValue) => JSValue.null)]
      (.obj [("kind", .str "b"), ("value", .num 5)]) =
      .error ⟨"No handler found for discriminant value: b"⟩ := rfl
  exact ⟨hd, (C3_missing_handler_error "kind" _ _).2 _ hd⟩

/-- Claim C4, counterexample: an array value IS descended into by the
flattening the Matcher uses — `flatten({a:[1,2]})` yields the indexed
pairs `("a.0",1), ("a.1",2)`, not the single whole-array leaf
`("a",[1,2])` that the claim's description ("an array value is never
descended into") would give. -/
theorem C4_counterexample :
    flattenObject (.obj [("a", .arr [.num 1, .num 2])]) =
      [(["a", "0"], .num 1), (["a", "1"], .num 2)] ∧
    claimFlatten (.obj [("a", .arr [.num 1, .num 2])]) =
      [(["a"], .arr [.num 1, .num 2])] ∧
    flattenObject (.obj [("a", .arr [.num 1, .num 2])]) ≠
      claimFlatten (.obj [("a", .arr [.num 1, .num 2])]) :=
  ⟨by decide, by decide, by decide⟩

/-- Claim C4, amended: for every pattern object (with pairwise-distinct
keys, as every JavaScript object has), the flattening used by the Matcher
returns exactly the set of (path, leaf) pairs reachable by descending
through nested *non-empty* plain-mapping values, with an array value
expanded one level into its index-addressed elements (the elements
themselves are not descended into); primitives, array elements and empty
plain mappings are leaves.  In particular `flatten({a:{b:1}, c:2})` yields
exactly `("a.b",1), ("c",2)` and `flatten({})` yields the empty set. -/
theorem C4_flatten_eq_reference (d : JSValue) (h : nodupKeys d = true) :
    flattenObject d = flattenSpec d ∧
    (flattenObject (.obj [("a", .obj [("b", .num 1)]), ("c", .num 2)])).map
      (fun e => (FieldPath.render e.1, e.2)) = [("a.b", .num 1), ("c", .num 2)] ∧
    flattenObject (.obj []) = [] :=
  ⟨flattenObject_eq_spec h, by decide, by decide⟩

/-- Claim C4, witness at a concrete input. -/
theorem C4_flatten_eq_reference_witness :
    nodupKeys (.obj [("a", .obj [("b", .num 1)]), ("c", .num 2)]) = true ∧
    flattenObject (.obj [("a", .obj [("b", .num 1)]), ("c", .num 2)]) =
      flattenSpec (.obj [("a", .obj [("b", .num 1)]), ("c", .num 2)]) :=
  ⟨by decide, (C4_flatten_eq_reference _ (by decide)).1⟩

/-- Claim C5, counterexample: two structurally-equal but differently
ordered patterns — `{a:1, b:2}` and `{b:2, a:1}` — produce different
memoization keys (`JSON.stringify` serializations) and different flattened
path lists, so re-supplying a value-equal pattern with a different key
enumeration order does re-derive the subscription. -/
theorem C5_counterexample :
    deepEq (.obj [("a", .num 1), ("b", .num 2)]) (.obj [("b", .num 2), ("a", .num 1)]) = true ∧
    jsonStr (.obj [("a", .num 1), ("b", .num 2)]) ≠
      jsonStr (.obj [("b", .num 2), ("a", .num 1)]) ∧
    discriminantKeys (.obj [("a", .num 1), ("b", .num 2)]) ≠
      discriminantKeys (.obj [("b", .num 2), ("a", .num 1)]) :=
  ⟨by decide, by decide, by decide⟩

/-- Claim C5, amended: for any two structurally-equal Pattern instances
whose keys are enumerated in the same order at every level (equivalently,
with equal `JSON.stringify` serializations), the derived memoization key
and the flattened path list are equal, so re-supplying such a
freshly-constructed value-equal pattern establishes no new subscription. -/
theorem C5_value_equal_same_order_same_subscription (p1 p2 : JSValue)
    (hnodup : nodupKeys p1 = true) (hdeep : deepEq p1 p2 = true)
    (hshape : sameShape p1 p2 = true) :
    jsonStr p1 = jsonStr p2 ∧ discriminantKeys p1 = discriminantKeys p2 := by
  have heq : p1 = p2 :=
    (eq_of_deepEq_sameShape (sizeOf p1)).1 p1 le_rfl hnodup p2 hdeep hshape
  rw [heq]
  exact ⟨rfl, rfl⟩

/-- Claim C5, witness at a concrete input. -/
theorem C5_value_equal_same_order_same_subscription_witness :
    deepEq (.obj [("kind", .str "a"), ("value", .str "x")])
      (.obj [("kind", .str "a"), ("value", .str "x")]) = true ∧
    jsonStr (.obj [("kind", .str "a"), ("value", .str "x")]) =
      jsonStr (.obj [("kind", .str "a"), ("value", .str "x")]) :=
  ⟨by decide,
    (C5_value_equal_same_order_same_subscription _ _ (by decide) (by decide) (by decide)).1⟩

/-- Claim C6: the accessor hook returned by `createDiscriminatedFormCtx`
performs no runtime branching or validation — its body is the bare context
lookup — and resolves to the identical underlying shared handle regardless
of which Variant Key was requested; requesting a non-matching key is not a
runtime error (the function is total and returns the same handle). -/
theorem C6_accessor_returns_shared_handle (u : Unit) (k1 k2 : String) (ctx : FormHandle) :
    createDiscriminatedFormCtx u k1 ctx = useFormContextLookup ctx ∧
    createDiscriminatedFormCtx u k1 ctx = createDiscriminatedFormCtx u k2 ctx :=
  ⟨rfl, rfl⟩

/-- Claim C7: dispatch never mutates the snapshot — the field-removal step
returns a new record that lacks the discriminant key and agrees with the
snapshot on every other field, and the handler is invoked on that removed
copy while the snapshot binding itself is unchanged (the embedding is
pure: `omitKey` is the only derivation the dispatcher performs on the
snapshot, and this theorem is its frame property). -/
theorem C7_dispatch_preserves_snapshot {R : Type} (discriminantKey : String)
    (handlers : List (String × (JSValue → R))) (values : JSValue) (k2 : String) :
    getOwn (omitKey values discriminantKey) k2 =
      (if k2 = discriminantKey then .undefined else getOwn values k2) ∧
    (∀ h, lookupKey handlers (jsToString (getOwn values discriminantKey)) = some h →
      dispatchSubmit discriminantKey handlers values =
        .ok (h (omitKey values discriminantKey))) := by
  refine ⟨getOwn_omitKey values discriminantKey k2, fun h hl => ?_⟩
  rw [dispatchSubmit]
  simp only [hl]

/-- Claim C7, witness at a concrete input. -/
theorem C7_dispatch_preserves_snapshot_witness :
    getOwn (omitKey (.obj [("kind", .str "b"), ("value", .num 5)]) "kind") "value" =
      getOwn (.obj [("kind", .str "b"), ("value", .num 5)]) "value" ∧
    dispatchSubmit "kind" [("b", fun (v : JSValue) => v)]
      (.obj [("kind", .str "b"), ("value", .num 5)]) =
      .ok (omitKey (.obj [("kind", .str "b"), ("value", .num 5)]) "kind") := by
  have H := C7_dispatch_preserves_snapshot (R := JSValue) "kind" [("b", fun v => v)]
    (.obj [("kind", .str "b"), ("value", .num 5)]) "value"
  refine ⟨?_, H.2 (fun v => v) rfl⟩
  rw [H.1]
  decide

/-- Claim C8: the Matcher watches exactly the flattened pattern paths —
the subscription list is `Object.keys(flattenObject(pattern))`, never the
whole record — so a change to a field path not named there never reruns
the `compute` callback and leaves `matches` untouched. -/
theorem C8_unwatched_path_no_recompute (d : JSValue) (ms : MatcherState)
    (path : FieldPath) (w : JSValue) (h : path ∉ discriminantKeys d) :
    (notifyChange d ms path w).computeCount = ms.computeCount ∧
    (notifyChange d ms path w).isMatching = ms.isMatching ∧
    discriminantKeys d = (flattenObject d).map Prod.fst := by
  rw [notifyChange]
  simp [h]
  rfl

/-- Claim C8, witness: changing `value`, which the pattern `{kind:"a"}`
never names, does not rerun `compute`. -/
theorem C8_unwatched_path_no_recompute_witness :
    (["value"] : FieldPath) ∉ discriminantKeys (.obj [("kind", .str "a")]) ∧
    (notifyChange (.obj [("kind", .str "a")])
      (initMatcher (.obj [("kind", .str "a")])
        (.obj [("kind", .str "a"), ("value", .str "x")]))
      ["value"] (.str "y")).computeCount =
      (initMatcher (.obj [("kind", .str "a")])
        (.obj [("kind", .str "a"), ("value", .str "x")])).computeCount :=
  ⟨by decide,
    (C8_unwatched_path_no_recompute (.obj [("kind", .str "a")])
      (initMatcher (.obj [("kind", .str "a")])
        (.obj [("kind", .str "a"), ("value", .str "x")]))
      ["value"] (.str "y") (by decide)).1⟩

/-- Claim C9, counterexample: a pattern leaf whose expected value is
`undefined` compares equal to an absent field — for pattern
`{j: undefined}` and state `{k:"a"}` the path `j` is absent from the state
yet the Matcher computes `true`, so "mismatched or absent fields simply
evaluate to false for that path" fails as stated. -/
theorem C9_counterexample :
    (["j"], JSValue.undefined) ∈ flattenObject (.obj [("j", .undefined)]) ∧
    hasPathSegs (.obj [("k", .str "a")]) ["j"] = false ∧
    codeMatches (.obj [("j", .undefined)]) (.obj [("k", .str "a")]) = true :=
  ⟨by decide, by decide, by decide⟩

/-- Claim C9, amended: Matcher evaluation is total (the embedding's
`codeMatches` is a total function — `get` yields `undefined` rather than
throwing on absent paths), and whenever the strict comparison at some
flattened pattern path is false — in particular whenever the field is
absent (`get` yields `undefined`) and the expected leaf is not itself
`undefined` — the overall `matches` is false.  The one exception to the
claim's wording is an expected value of `undefined`, which an absent field
satisfies. -/
theorem C9_absent_or_mismatched_forces_false (d s : JSValue) (h : nodupKeys d = true)
    (p : FieldPath) (w : JSValue) (hm : (p, w) ∈ flattenObject d) :
    (strictEq (getPathSegs s p) w = false → codeMatches d s = false) ∧
    (getPathSegs s p = .undefined → w ≠ .undefined → codeMatches d s = false) := by
  have main : strictEq (getPathSegs s p) w = false → codeMatches d s = false := by
    intro hne
    cases hcm : codeMatches d s with
    | false => rfl
    | true =>
      have := (codeMatches_iff_pairs h s).mp hcm p w hm
      rw [hne] at this
      exact absurd this (by simp)
  refine ⟨main, fun habs hwne => main ?_⟩
  rw [habs]
  cases w with
  | undefined => exact absurd rfl hwne
  | null => rfl
  | bool b => rfl
  | num m => rfl
  | str s2 => rfl
  | arr xs => rfl
  | obj fs => rfl

/-- Claim C9, witness: pattern `{kind:"a"}` against the empty state — the
field is absent, so `matches` is false. -/
theorem C9_absent_or_mismatched_forces_false_witness :
    (["kind"], JSValue.str "a") ∈ flattenObject (.obj [("kind", .str "a")]) ∧
    getPathSegs (.obj []) ["kind"] = .undefined ∧
    codeMatches (.obj [("kind", .str "a")]) (.obj []) = false :=
  ⟨by decide, by decide,
    (C9_absent_or_mismatched_forces_false (.obj [("kind", .str "a")]) (.obj [])
      (by decide) ["kind"] (.str "a") (by decide)).2 (by decide) (by decide)⟩

/-- Claim C10: the `form` argument of `createDiscriminatedSubmitHandler`
is never used at runtime — the dispatch closures built from any two form
handles (even of different types) behave identically on every values
input: same handler invocation, same result, same error. -/
theorem C10_form_argument_unused {R F1 F2 : Type} (f1 : F1) (f2 : F2)
    (discriminantKey : String) (handlers : List (String × (JSValue → R)))
    (values : JSValue) :
    createDiscriminatedSubmitHandler f1 discriminantKey handlers values =
      createDiscriminatedSubmitHandler f2 discriminantKey handlers values :=
  rfl
